import Mathlib

/-!
Shallow embedding of the findilo scanner (src/main.go) and proofs about it.

Go strings are modelled as `List Char`, Go byte slices as `List Nat` with
every entry below 256, Go `int` arithmetic as `Int` with the 64-bit clamps
written out where the source can overflow, and fallible or panicking code
as `Option`-valued functions where `none` marks the panic path.
-/

/-- Character class accepted by Go's `unicode.IsSpace` for the Latin-1 range,
used by `strings.TrimSpace` in the source. -/
def isGoSpace (c : Char) : Bool :=
  c = ' ' || c = '\t' || c = '\n' || c = '\u000b' || c = '\u000c' || c = '\r' ||
  c = '\u0085' || c = ' '

/-- Models `strings.TrimSpace`: drop leading and trailing whitespace. -/
def trimSpace (l : List Char) : List Char :=
  ((l.dropWhile isGoSpace).reverse.dropWhile isGoSpace).reverse

/-- The `notAvailable` constant of the source, the string "N/A". -/
def notAvailable : List Char := ['N', '/', 'A']

/-- The `RIMP` struct of the source: the fields unmarshalled from the
`/xmldata?item=all` document (`HSI>SBSN`, `HSI>SPN`, `MP>PN`, `MP>FWRI`,
`MP>HWRI`).  A field the document lacks unmarshals to the empty string. -/
structure RIMP where
  SBSN : List Char
  SPN  : List Char
  PN   : List Char
  FWRI : List Char
  HWRI : List Char
deriving DecidableEq, Repr

/-- The `ILOInfo` struct of the source. -/
structure ILOInfo where
  IP         : List Char
  HW         : List Char
  Model      : List Char
  FW         : List Char
  Serial     : List Char
  ServerName : List Char
  IloName    : List Char
deriving DecidableEq, Repr

/-- Helper for the regex `\((.*)\)` used by `RIMP.HW`: given the text that
follows an opening parenthesis, Go's greedy `.*` (which cannot cross a
newline) captures everything up to the last `)` before the next newline.
Returns `none` when no such `)` exists, i.e. no match starts here. -/
def captureAfterOpen (rest : List Char) : Option (List Char) :=
  let seg := rest.takeWhile (fun c => c ≠ '\n')
  let tl := seg.reverse.dropWhile (fun c => c ≠ ')')
  match tl with
  | [] => none
  | _ :: before => some before.reverse

/-- First-match capture group of the regex `\((.*)\)` on a string, as
computed by `FindAllStringSubmatch(s, 1)[0][1]` in the source: the match
starts at the leftmost `(` that is followed by a `)` on the same line, and
the capture extends greedily to the last such `)`. -/
def findParenCapture : List Char → Option (List Char)
  | [] => none
  | c :: rest =>
    if c = '(' then
      match captureAfterOpen rest with
      | some cap => some cap
      | none => findParenCapture rest
    else
      findParenCapture rest

/-- The `HW` method of `RIMP`.  The source returns `notAvailable` for an
empty `PN` and otherwise evaluates
`strings.TrimSpace(iloRevision.FindAllStringSubmatch(r.PN, 1)[0][1])`;
when the regex does not match, `FindAllStringSubmatch` yields `nil` and the
`[0]` index panics, which this embedding records as `none`. -/
def RIMP.HW (r : RIMP) : Option (List Char) :=
  if r.PN = [] then
    some notAvailable
  else
    match findParenCapture r.PN with
    | some cap => some (trimSpace cap)
    | none => none

/-- The `Model` method of `RIMP`: `notAvailable` when `len(r.SPN) == 0`,
otherwise `strings.TrimSpace(r.SPN)`. -/
def RIMP.Model (r : RIMP) : List Char :=
  if r.SPN = [] then notAvailable else trimSpace r.SPN

/-- The `FW` method of `RIMP`: `notAvailable` when `len(r.FWRI) == 0`,
otherwise `strings.TrimSpace(r.FWRI)`. -/
def RIMP.FW (r : RIMP) : List Char :=
  if r.FWRI = [] then notAvailable else trimSpace r.FWRI

/-- The record constructed by `requestInfo` after a successful fetch and
unmarshal of the metadata document.  The result is `none` exactly when the
`HW()` call panics (see `RIMP.HW`); otherwise it is the `ILOInfo` literal
of the source, whose name fields start out empty. -/
def requestInfoRecord (ip : List Char) (r : RIMP) : Option ILOInfo :=
  match r.HW with
  | none => none
  | some hw =>
    some { IP := ip, HW := hw, FW := r.FW, Model := r.Model,
           Serial := trimSpace r.SBSN, ServerName := [], IloName := [] }

/-- Whether the regex `iLO (3|4|5)` matches at the head of the string:
the literal `iLO ` followed by the digit 3, 4 or 5. -/
def genHere : List Char → Bool
  | 'i' :: 'L' :: 'O' :: ' ' :: d :: _ => d = '3' || d = '4' || d = '5'
  | _ => false

/-- Models `regexp.MatchString("iLO (3|4|5)", s)`: the pattern matches
anywhere in the string. -/
def generationMatch : List Char → Bool
  | [] => false
  | c :: rest => genHere (c :: rest) || generationMatch rest

/-- Outcome of processing one host inside `scan` (src/main.go lines
263-282). -/
inductive HostStep where
  /-- The port probe failed; the host is skipped. -/
  | skipped : HostStep
  /-- `requestInfo` returned an error, so `info` is `nil`; the source
  nevertheless evaluates `info.HW` for the generation match and panics on
  the nil pointer. -/
  | crashNilDeref : HostStep
  /-- `requestInfo` itself panicked inside `RIMP.HW` (regex mismatch). -/
  | crashHWPanic : HostStep
  /-- A record was sent to the output channel. -/
  | emitted : ILOInfo → HostStep
deriving DecidableEq, Repr

/-- One iteration of the `scan` loop for a single host.  `isOpen` is the
`IsOpen(host, iloPort)` verdict, `doc` the fetched metadata (`none` models
a network or unmarshal error from `requestInfo`), and `modern`/`legacy`
are the name pairs the two name-resolution protocols would return (their
errors are discarded by the source, so they are plain values here). -/
def processHost (ip : List Char) (isOpen : Bool) (doc : Option RIMP)
    (modern legacy : List Char × List Char) : HostStep :=
  if isOpen then
    match doc with
    | none => .crashNilDeref
    | some r =>
      match requestInfoRecord ip r with
      | none => .crashHWPanic
      | some info =>
        let names := if generationMatch info.HW then modern else legacy
        .emitted { info with ServerName := names.1, IloName := names.2 }
  else
    .skipped

/-- Value of base-10 digits read left to right. -/
def digitsVal (l : List Char) : Nat :=
  l.foldl (fun acc c => acc * 10 + (c.toNat - 48)) 0

/-- Whether every character is an ASCII decimal digit. -/
def allDigits (l : List Char) : Bool :=
  l.all fun c => '0' ≤ c && c ≤ '9'

/-- Splits an optional leading sign from the digits of a candidate integer
literal, as `strconv.ParseInt` does. -/
def splitSign (s : List Char) : Bool × List Char :=
  match s with
  | '-' :: rest => (true, rest)
  | '+' :: rest => (false, rest)
  | _ => (false, s)

/-- Whether `strconv.Atoi` accepts the string: an optional sign followed by
a nonempty run of ASCII digits. -/
def atoiOk (s : List Char) : Bool :=
  let ds := (splitSign s).2
  !ds.isEmpty && allDigits ds

/-- The value the source reads out of `strconv.Atoi(s)` while discarding
the error: 0 on a syntax error, and the value clamped to the 64-bit `int`
range on overflow (Go returns the clamped value together with `ErrRange`,
and the source ignores the error). -/
def atoiVal (s : List Char) : Int :=
  let (neg, ds) := splitSign s
  if !ds.isEmpty && allDigits ds then
    let n := digitsVal ds
    if neg then
      if n ≤ 2 ^ 63 then -(n : Int) else -(2 ^ 63)
    else
      if n < 2 ^ 63 then (n : Int) else 2 ^ 63 - 1
  else
    0

/-- Sort key computed (twice, once per argument) by the `version` closure
in `tableRender`: split `HW` on single spaces, default the key to 1, and
overwrite it with the `Atoi` of the second token when one exists. -/
def versionKey (hw : List Char) : Int :=
  match (hw.splitOn ' ')[1]? with
  | some t => atoiVal t
  | none => 1

/-- The `version` less-function passed to `By(...).Sort` in `tableRender`. -/
def version (i1 i2 : ILOInfo) : Bool :=
  versionKey i1.HW < versionKey i2.HW

/-- Postcondition of `By(version).Sort`, which runs Go's `sort.Sort` over
the drained records: the slice is permuted so that no element is strictly
`version`-less than a predecessor.  Go documents `sort.Sort` as not
guaranteed to be stable, so the embedding is this relational contract
rather than one particular permutation. -/
def tableOrder (drained sorted : List ILOInfo) : Prop :=
  sorted.Perm drained ∧ sorted.Pairwise fun a b => version b a = false

/-- Loop of `makeJobs`.  `fuel` only bounds the recursion; with the fuel
`makeJobs` supplies it never runs out (each iteration advances `end_` by
`chunk ≥ 1`), and the fuel-exhausted fallback coincides with the loop-exit
result so the equations below hold uniformly. -/
def makeJobsLoop (ar : List α) (chunk : Nat) : Nat → Nat → Nat → List (List α)
  | 0, start, _ => [ar.drop start]
  | fuel + 1, start, end_ =>
    if end_ < ar.length then
      (ar.drop start).take (end_ - start) ::
        makeJobsLoop ar chunk fuel end_ (end_ + chunk)
    else
      [ar.drop start]

/-- The `makeJobs` function of the source: `chunk := len(ar) / count`,
then slices `ar[start:end]` are emitted with the first `end` equal to
`count` and every later step advancing by `chunk`, the final slice running
to the end of the list.  Defined for `count > 0` (the source divides by
`count` and is only called with the constant 100). -/
def makeJobs (ar : List α) (count : Nat) : List (List α) :=
  makeJobsLoop ar (ar.length / count) (ar.length + 1) 0 count

/-- Little-endian byte increment: the loop of `inc` in the source walks
the address bytes from the end, incrementing and stopping at the first
byte that does not wrap to 0. -/
def incLittle : List Nat → List Nat
  | [] => []
  | b :: rest =>
    let b' := (b + 1) % 256
    if 0 < b' then b' :: rest else b' :: incLittle rest

/-- The `inc` function of the source on a big-endian byte slice. -/
def inc (ip : List Nat) : List Nat :=
  (incLittle ip.reverse).reverse

/-- Numeric value of a little-endian byte list. -/
def toNumLE : List Nat → Nat
  | [] => 0
  | b :: rest => b + 256 * toNumLE rest

/-- Numeric value of a big-endian byte list (how `net.IP` stores IPv4). -/
def toNum (ip : List Nat) : Nat :=
  toNumLE ip.reverse

/-- Little-endian byte decomposition of a number into `k` bytes. -/
def ofNumLE : Nat → Nat → List Nat
  | 0, _ => []
  | k + 1, n => n % 256 :: ofNumLE k (n / 256)

/-- Big-endian byte decomposition of a number into `k` bytes. -/
def ofNum (k n : Nat) : List Nat :=
  (ofNumLE k n).reverse

/-- One step of the enumeration loop in `main`, on addresses as numbers:
decode to the 4 bytes of a `net.IP`, run the source's `inc`, re-encode. -/
def ipStep (a : Nat) : Nat :=
  toNum (inc (ofNum 4 a))

/-- Models `ip.Mask(ipnet.Mask)` for a `/p` IPv4 network: clear the low
`32 - p` bits. -/
def maskAddr (p a : Nat) : Nat :=
  a / 2 ^ (32 - p) * 2 ^ (32 - p)

/-- Models `ipnet.Contains(ip)` for a `/p` network with (masked) base
address `base`: mask the candidate and compare with the base. -/
def containsAddr (p base a : Nat) : Bool :=
  maskAddr p a = base

/-- The address-enumeration loop of `main`
(`for ip := ip.Mask(ipnet.Mask); ipnet.Contains(ip); inc(ip)`), collecting
the addresses it appends.  `fuel` bounds the recursion so the definition
is total; the loop itself has no such bound, so a run of the source
produces a finite list exactly when some fuel is left over (see
`producesOutput`). -/
def enumLoop (p base : Nat) : Nat → Nat → List Nat
  | 0, _ => []
  | fuel + 1, cur =>
    if containsAddr p base cur then cur :: enumLoop p base fuel (ipStep cur)
    else []

/-- The enumeration of `a/p` terminates with output `L` exactly when the
loop, given one more fuel than `L` has elements, stops by itself at `L`:
a run that would continue past `L.length` addresses returns a longer list
instead, so this pins down both termination and the value. -/
def producesOutput (p a : Nat) (L : List Nat) : Prop :=
  enumLoop p (maskAddr p a) (L.length + 1) (maskAddr p a) = L

/-- Termination of the enumeration loop of `main` on input `a/p`: some
iterate of the loop step escapes the network. -/
def LoopTerminates (p a : Nat) : Prop :=
  ∃ n, containsAddr p (maskAddr p a) (ipStep^[n] (maskAddr p a)) = false

/-- Concatenating the tail of the job list starting at `start` recovers the
suffix of the address list from `start`, for any fuel. -/
theorem makeJobsLoop_flatten (ar : List α) (chunk : Nat) :
    ∀ (fuel start end_ : Nat), start ≤ end_ →
      (makeJobsLoop ar chunk fuel start end_).flatten = ar.drop start := by
  intro fuel
  induction fuel with
  | zero => intro start end_ _; simp [makeJobsLoop]
  | succ f ih =>
    intro start end_ hse
    by_cases h : end_ < ar.length
    · have htail := ih end_ (end_ + chunk) (Nat.le_add_right _ _)
      have hsplit :
          (ar.drop start).take (end_ - start) ++ ar.drop end_ = ar.drop start := by
        have h1 : ar.drop end_ = (ar.drop start).drop (end_ - start) := by
          rw [List.drop_drop, Nat.add_sub_cancel' hse]
        rw [h1, List.take_append_drop]
      simp only [makeJobsLoop, if_pos h, List.flatten_cons, htail, hsplit]
    · simp [makeJobsLoop, if_neg h]

/-- Once the end index has reached the length of the list, the loop emits
the single final slice regardless of remaining fuel. -/
theorem makeJobsLoop_done (ar : List α) (chunk : Nat) (fuel start end_ : Nat)
    (h : ¬ end_ < ar.length) :
    makeJobsLoop ar chunk fuel start end_ = [ar.drop start] := by
  cases fuel with
  | zero => rfl
  | succ f => simp [makeJobsLoop, if_neg h]

/-- Shape of the job lengths produced by the loop: the first slice runs
from `start` to `end_`, then a run of `chunk`-sized slices, and a final
slice of between 1 and `chunk` addresses. -/
theorem makeJobsLoop_lengths (ar : List α) (chunk : Nat) (hchunk : 1 ≤ chunk) :
    ∀ (fuel start end_ : Nat), start ≤ end_ → end_ < ar.length →
      ar.length ≤ end_ + fuel * chunk →
      ∃ k r, (makeJobsLoop ar chunk fuel start end_).map List.length =
          (end_ - start) :: (List.replicate k chunk ++ [r]) ∧
        1 ≤ r ∧ r ≤ chunk ∧ end_ + k * chunk + r = ar.length := by
  intro fuel
  induction fuel with
  | zero =>
    intro start end_ _ hlt hle
    exact absurd (Nat.lt_of_lt_of_le hlt hle) (by simp)
  | succ f ih =>
    intro start end_ hse hlt hle
    have hfirst : ((ar.drop start).take (end_ - start)).length = end_ - start := by
      rw [List.length_take, List.length_drop]
      exact Nat.min_eq_left (Nat.sub_le_sub_right (Nat.le_of_lt hlt) start)
    by_cases h2 : end_ + chunk < ar.length
    · have hle' : ar.length ≤ end_ + chunk + f * chunk := by
        have : end_ + (f + 1) * chunk = end_ + chunk + f * chunk := by ring
        omega
      obtain ⟨k, r, heq, hr1, hr2, hsum⟩ :=
        ih end_ (end_ + chunk) (Nat.le_add_right _ _) h2 hle'
      have hmul : (k + 1) * chunk = k * chunk + chunk := by ring
      refine ⟨k + 1, r, ?_, hr1, hr2, by omega⟩
      simp only [makeJobsLoop, if_pos hlt, List.map_cons, hfirst, heq,
        Nat.add_sub_cancel_left, List.replicate_succ, List.cons_append]
    · have htail : makeJobsLoop ar chunk f end_ (end_ + chunk) = [ar.drop end_] :=
        makeJobsLoop_done ar chunk f end_ (end_ + chunk) h2
      refine ⟨0, ar.length - end_, ?_, by omega, by omega, by omega⟩
      simp only [makeJobsLoop, if_pos hlt, List.map_cons, hfirst, htail,
        List.map_cons, List.map_nil, List.length_drop, List.replicate,
        List.nil_append]

/-- C5.  For every address list and every positive worker count, the jobs
produced by `makeJobs` are contiguous slices whose concatenation in job
order reconstructs the original list exactly: no address is dropped and no
address is duplicated. -/
theorem makeJobs_exact_partition (ar : List α) (count : Nat) (h : 0 < count) :
    (makeJobs ar count).flatten = ar := by
  have := makeJobsLoop_flatten ar (ar.length / count) (ar.length + 1) 0 count
    (Nat.zero_le count)
  simpa [makeJobs] using this

/-- Witness for `makeJobs_exact_partition` at a concrete input. -/
theorem makeJobs_exact_partition_witness :
    0 < 2 ∧ (makeJobs (List.range 10) 2).flatten = List.range 10 :=
  ⟨by decide, makeJobs_exact_partition (List.range 10) 2 (by decide)⟩

/-- C6 counterexample.  With ten addresses and two workers the integer
division chunk is 5, yet the first emitted job holds 2 addresses: the
source initialises the running end index to `count`, not `chunk`, so a
non-final job differs from `floor(len/count)`. -/
theorem makeJobs_first_chunk_counterexample :
    (makeJobs (List.range 10) 2).map List.length = [2, 5, 3] ∧
      ¬ ∀ j ∈ (makeJobs (List.range 10) 2).dropLast,
          j.length = (List.range 10).length / 2 := by
  constructor
  · rfl
  · decide

/-- C6 amended.  For every address list longer than the worker count, the
first job contains exactly `count` addresses, every later job except the
final one contains exactly `floor(len/count)` addresses, and the final job
holds the remaining between 1 and `floor(len/count)` addresses. -/
theorem makeJobs_lengths_amended (ar : List α) (count : Nat)
    (hpos : 0 < count) (hlt : count < ar.length) :
    ∃ k r, (makeJobs ar count).map List.length =
        count :: (List.replicate k (ar.length / count) ++ [r]) ∧
      1 ≤ r ∧ r ≤ ar.length / count ∧
      count + k * (ar.length / count) + r = ar.length := by
  have hchunk : 1 ≤ ar.length / count := Nat.div_pos (Nat.le_of_lt hlt) hpos
  have hfuel : ar.length ≤ count + (ar.length + 1) * (ar.length / count) := by
    calc ar.length ≤ (ar.length + 1) * 1 := by omega
    _ ≤ (ar.length + 1) * (ar.length / count) :=
        Nat.mul_le_mul_left _ hchunk
    _ ≤ count + (ar.length + 1) * (ar.length / count) := Nat.le_add_left _ _
  obtain ⟨k, r, heq, h1, h2, h3⟩ :=
    makeJobsLoop_lengths ar (ar.length / count) hchunk (ar.length + 1) 0 count
      (Nat.zero_le count) hlt hfuel
  exact ⟨k, r, by simpa [makeJobs] using heq, h1, h2, h3⟩

/-- Witness for `makeJobs_lengths_amended` at a concrete input. -/
theorem makeJobs_lengths_amended_witness :
    0 < 2 ∧ 2 < (List.range 10).length ∧
      ∃ k r, (makeJobs (List.range 10) 2).map List.length =
          2 :: (List.replicate k ((List.range 10).length / 2) ++ [r]) ∧
        1 ≤ r ∧ r ≤ (List.range 10).length / 2 ∧
        2 + k * ((List.range 10).length / 2) + r = (List.range 10).length :=
  ⟨by decide, by decide,
    makeJobs_lengths_amended (List.range 10) 2 (by decide) (by decide)⟩

/-- The byte-wise increment preserves the number of bytes. -/
theorem length_incLittle : ∀ l : List Nat, (incLittle l).length = l.length := by
  intro l
  induction l with
  | nil => rfl
  | cons b rest ih =>
    simp only [incLittle]
    by_cases h : 0 < (b + 1) % 256 <;> simp [h, ih]

/-- A valid byte list encodes a value below `256 ^ length`. -/
theorem toNumLE_lt : ∀ l : List Nat, (∀ b ∈ l, b < 256) →
    toNumLE l < 256 ^ l.length := by
  intro l
  induction l with
  | nil => intro _; simp [toNumLE]
  | cons b rest ih =>
    intro hv
    have hb : b < 256 := hv b (List.mem_cons_self b rest)
    have ht : toNumLE rest < 256 ^ rest.length :=
      ih fun x hx => hv x (List.mem_cons_of_mem b hx)
    have : b + 256 * toNumLE rest + 1 ≤ 256 * 256 ^ rest.length := by
      calc b + 256 * toNumLE rest + 1 ≤ 256 * toNumLE rest + 256 := by omega
      _ = 256 * (toNumLE rest + 1) := by ring
      _ ≤ 256 * 256 ^ rest.length := Nat.mul_le_mul_left _ ht
    simpa [toNumLE, List.length_cons, Nat.pow_succ, Nat.mul_comm] using this

/-- Little-endian reading of the byte-wise increment is addition by one,
modulo overflow of the full width. -/
theorem toNumLE_incLittle : ∀ l : List Nat, (∀ b ∈ l, b < 256) →
    toNumLE (incLittle l) = (toNumLE l + 1) % 256 ^ l.length := by
  intro l
  induction l with
  | nil => intro _; simp [incLittle, toNumLE]
  | cons b rest ih =>
    intro hv
    have hb : b < 256 := hv b (List.mem_cons_self b rest)
    have ht : toNumLE rest < 256 ^ rest.length :=
      toNumLE_lt rest fun x hx => hv x (List.mem_cons_of_mem b hx)
    have hpow : (256 : Nat) ^ (rest.length + 1) = 256 * 256 ^ rest.length := by
      rw [Nat.pow_succ, Nat.mul_comm]
    by_cases hcarry : b + 1 < 256
    · have hmod : (b + 1) % 256 = b + 1 := Nat.mod_eq_of_lt hcarry
      have hle : b + 256 * toNumLE rest + 2 ≤ 256 * (toNumLE rest + 1) := by omega
      have hle2 : 256 * (toNumLE rest + 1) ≤ 256 * 256 ^ rest.length :=
        Nat.mul_le_mul_left _ ht
      have hlt : b + 256 * toNumLE rest + 1 < 256 ^ (rest.length + 1) := by
        rw [hpow]; omega
      have hres : (b + 256 * toNumLE rest + 1) % 256 ^ (rest.length + 1)
          = b + 256 * toNumLE rest + 1 := Nat.mod_eq_of_lt hlt
      simp only [incLittle, hmod, if_pos (by omega : 0 < b + 1), toNumLE,
        List.length_cons, hres]
      omega
    · have hb255 : b = 255 := by omega
      have hmod : (b + 1) % 256 = 0 := by rw [hb255]
      simp only [incLittle, hmod, if_neg (by omega : ¬ 0 < 0), toNumLE,
        List.length_cons,
        ih fun x hx => hv x (List.mem_cons_of_mem b hx), hpow, hb255]
      norm_num
      have harr : 255 + 256 * toNumLE rest + 1 = 256 * (toNumLE rest + 1) := by
        ring
      rw [harr, Nat.mul_mod_mul_left]

/-- The little-endian decomposition has the requested number of bytes. -/
theorem length_ofNumLE : ∀ k n, (ofNumLE k n).length = k := by
  intro k
  induction k with
  | zero => intro n; rfl
  | succ m ih => intro n; simp [ofNumLE, ih]

/-- Every byte of the little-endian decomposition is a valid byte. -/
theorem ofNumLE_bytes : ∀ k n, ∀ b ∈ ofNumLE k n, b < 256 := by
  intro k
  induction k with
  | zero => intro n b hb; cases hb
  | succ m ih =>
    intro n b hb
    rcases List.mem_cons.1 hb with h | h
    · subst h; exact Nat.mod_lt _ (by omega)
    · exact ih (n / 256) b h

/-- Reading back the little-endian decomposition gives the value modulo
the width. -/
theorem toNumLE_ofNumLE : ∀ k n, toNumLE (ofNumLE k n) = n % 256 ^ k := by
  intro k
  induction k with
  | zero => intro n; simp [ofNumLE, toNumLE, Nat.mod_one]
  | succ m ih =>
    intro n
    have hpow : (256 : Nat) ^ (m + 1) = 256 * 256 ^ m := by
      rw [Nat.pow_succ, Nat.mul_comm]
    simp only [ofNumLE, toNumLE, ih, hpow, Nat.mod_mul]

/-- One pass of the source's `inc` over the four bytes of an IPv4 address
is numerically the successor modulo `2 ^ 32`: the byte-wise carry chain of
`inc` wraps `255.255.255.255` around to `0.0.0.0`. -/
theorem ipStep_eq (a : Nat) : ipStep a = (a + 1) % 2 ^ 32 := by
  have h1 : ipStep a = toNumLE (incLittle (ofNumLE 4 a)) := by
    simp [ipStep, toNum, inc, ofNum, List.reverse_reverse]
  have h2 : toNumLE (incLittle (ofNumLE 4 a))
      = (toNumLE (ofNumLE 4 a) + 1) % 256 ^ (ofNumLE 4 a).length :=
    toNumLE_incLittle _ (ofNumLE_bytes 4 a)
  have h3 : (256 : Nat) ^ (ofNumLE 4 a).length = 2 ^ 32 := by
    rw [length_ofNumLE]; norm_num
  have h4 : toNumLE (ofNumLE 4 a) = a % 2 ^ 32 := by
    rw [toNumLE_ofNumLE]; norm_num
  rw [h1, h2, h3, h4]
  omega

/-- The step of the enumeration loop keeps addresses below `2 ^ 32`. -/
theorem ipStep_lt (a : Nat) : ipStep a < 2 ^ 32 := by
  rw [ipStep_eq]
  exact Nat.mod_lt _ (by norm_num)

/-- The loop stops immediately on an address outside the network. -/
theorem enumLoop_stop (p base fuel x : Nat)
    (h : containsAddr p base x = false) : enumLoop p base fuel x = [] := by
  cases fuel with
  | zero => rfl
  | succ f => simp [enumLoop, h]


/-- The masked base plus any offset inside the block is still inside the
network. -/
theorem containsAddr_in_block (p a k : Nat) (hk : k < 2 ^ (32 - p)) :
    containsAddr p (maskAddr p a) (maskAddr p a + k) = true := by
  have hS0 : 0 < 2 ^ (32 - p) := Nat.two_pow_pos _
  have hdiv : (a / 2 ^ (32 - p) * 2 ^ (32 - p) + k) / 2 ^ (32 - p)
      = a / 2 ^ (32 - p) := by
    rw [Nat.mul_comm (a / 2 ^ (32 - p)), Nat.mul_add_div hS0,
      Nat.div_eq_of_lt hk, Nat.add_zero]
  simp [containsAddr, maskAddr, hdiv]

/-- The first address past the block is outside the network. -/
theorem containsAddr_at_end (p a : Nat) :
    containsAddr p (maskAddr p a) (maskAddr p a + 2 ^ (32 - p)) = false := by
  have hS0 : 0 < 2 ^ (32 - p) := Nat.two_pow_pos _
  have hdiv : (a / 2 ^ (32 - p) * 2 ^ (32 - p) + 2 ^ (32 - p)) / 2 ^ (32 - p)
      = a / 2 ^ (32 - p) + 1 := by
    rw [Nat.mul_comm (a / 2 ^ (32 - p)), Nat.mul_add_div hS0,
      Nat.div_self hS0]
  simp only [containsAddr, maskAddr, hdiv, decide_eq_false_iff_not]
  intro h
  have h2 : (a / 2 ^ (32 - p) + 1) * 2 ^ (32 - p)
      = a / 2 ^ (32 - p) * 2 ^ (32 - p) + 2 ^ (32 - p) := by ring
  omega

/-- Address zero is outside every network with a nonzero base. -/
theorem containsAddr_zero_escape (p base : Nat) (h : 0 < base) :
    containsAddr p base 0 = false := by
  simp only [containsAddr, maskAddr, Nat.zero_div, Nat.zero_mul,
    decide_eq_false_iff_not]
  omega

/-- The masked base of an IPv4 address leaves room for the whole block
below `2 ^ 32`. -/
theorem maskAddr_block_le (p a : Nat) (hp2 : p ≤ 32) (ha : a < 2 ^ 32) :
    maskAddr p a + 2 ^ (32 - p) ≤ 2 ^ 32 := by
  have hS0 : 0 < 2 ^ (32 - p) := Nat.two_pow_pos _
  have hsplit : 2 ^ p * 2 ^ (32 - p) = 2 ^ 32 := by
    rw [← pow_add]
    congr 1
    omega
  have hq : a / 2 ^ (32 - p) < 2 ^ p := by
    rw [Nat.div_lt_iff_lt_mul hS0]
    exact lt_of_lt_of_eq ha hsplit.symm
  calc maskAddr p a + 2 ^ (32 - p)
      = (a / 2 ^ (32 - p) + 1) * 2 ^ (32 - p) := by rw [maskAddr]; ring
  _ ≤ 2 ^ p * 2 ^ (32 - p) := Nat.mul_le_mul_right _ hq
  _ = 2 ^ 32 := hsplit

/-- Core of the enumeration: with enough fuel, the loop started `k`
addresses into the block of `a/p` yields exactly the remaining
`2^(32-p) - k` consecutive addresses.  The wrap of `inc` past
`255.255.255.255` exits the loop because address zero is outside every
block with `p ≥ 1`. -/
theorem enumLoop_eq_range' (p a : Nat) (hp1 : 1 ≤ p) (hp2 : p ≤ 32)
    (ha : a < 2 ^ 32) :
    ∀ fuel k, k ≤ 2 ^ (32 - p) → 2 ^ (32 - p) - k < fuel →
      enumLoop p (maskAddr p a) fuel (maskAddr p a + k) =
        List.range' (maskAddr p a + k) (2 ^ (32 - p) - k) := by
  have hS0 : 0 < 2 ^ (32 - p) := Nat.two_pow_pos _
  have hS31 : 2 ^ (32 - p) ≤ 2 ^ 31 :=
    Nat.pow_le_pow_right (by norm_num) (by omega)
  have hblock := maskAddr_block_le p a hp2 ha
  intro fuel
  induction fuel with
  | zero => intro k _ hcontra; omega
  | succ f ih =>
    intro k hk hfuel
    by_cases hklt : k < 2 ^ (32 - p)
    · have hcont := containsAddr_in_block p a k hklt
      have hstep : ipStep (maskAddr p a + k) = (maskAddr p a + k + 1) % 2 ^ 32 :=
        ipStep_eq _
      by_cases hw : maskAddr p a + k + 1 < 2 ^ 32
      · have hnext : ipStep (maskAddr p a + k) = maskAddr p a + k + 1 := by
          rw [hstep, Nat.mod_eq_of_lt hw]
        have hrec := ih (k + 1) hklt (by omega)
        rw [← Nat.add_assoc] at hrec
        have hsn : 2 ^ (32 - p) - k = (2 ^ (32 - p) - (k + 1)) + 1 := by omega
        simp only [enumLoop, hcont, if_true, hnext, hrec, hsn,
          List.range'_succ]
      · have hw2 : maskAddr p a + k + 1 = 2 ^ 32 := by omega
        have hbase0 : 0 < maskAddr p a := by omega
        have hnext : ipStep (maskAddr p a + k) = 0 := by
          rw [hstep, hw2, Nat.mod_self]
        have hstop := enumLoop_stop p (maskAddr p a) f 0
          (containsAddr_zero_escape p (maskAddr p a) hbase0)
        have hsn : 2 ^ (32 - p) - k = 1 := by omega
        simp only [enumLoop, hcont, if_true, hnext, hstop, hsn,
          List.range'_one]
    · have hkS : k = 2 ^ (32 - p) := by omega
      subst hkS
      rw [enumLoop_stop p (maskAddr p a) (f + 1) _ (containsAddr_at_end p a),
        Nat.sub_self, List.range'_zero]

/-- C4.  On the network `0.0.0.0/0` the enumeration loop of `main` never
terminates: the zero mask makes `Contains` accept every address, and the
byte-wise `inc` wraps `255.255.255.255` back to `0.0.0.0`, which is again
inside the block.  No iterate of the loop step ever escapes. -/
theorem enum_slash_zero_never_terminates :
    ¬ LoopTerminates 0 0 ∧ toNum (inc [255, 255, 255, 255]) = 0 := by
  constructor
  · rintro ⟨n, hn⟩
    have hmask : maskAddr 0 0 = 0 := by simp [maskAddr]
    have hlt : ∀ m : Nat, ipStep^[m] (maskAddr 0 0) < 2 ^ 32 := by
      intro m
      induction m with
      | zero => rw [Function.iterate_zero_apply, hmask]; norm_num
      | succ m ih => rw [Function.iterate_succ_apply']; exact ipStep_lt _
    have hc : containsAddr 0 (maskAddr 0 0) (ipStep^[n] (maskAddr 0 0))
        = true := by
      have hx := hlt n
      rw [hmask] at hx ⊢
      simp only [containsAddr, maskAddr, Nat.sub_zero, decide_eq_true_eq]
      have hdiv : ipStep^[n] 0 / 2 ^ 32 = 0 := Nat.div_eq_of_lt hx
      rw [hdiv, Nat.zero_mul]
    rw [hn] at hc
    exact Bool.false_ne_true hc
  · rfl

/-- C8 counterexample.  On the valid CIDR input `0.0.0.0/0` the enumerator
produces no output at all, let alone one of length `2^32`: the loop body
runs forever, so no finite list is the result of a completed run. -/
theorem enum_slash_zero_no_output :
    ¬ ∃ L : List Nat, producesOutput 0 0 L := by
  rintro ⟨L, hL⟩
  have hmask : maskAddr 0 0 = 0 := by simp [maskAddr]
  have hlen : ∀ fuel cur, cur < 2 ^ 32 →
      (enumLoop 0 0 fuel cur).length = fuel := by
    intro fuel
    induction fuel with
    | zero => intro cur _; rfl
    | succ f ih =>
      intro cur hcur
      have hc : containsAddr 0 0 cur = true := by
        simp only [containsAddr, maskAddr, Nat.sub_zero, decide_eq_true_eq]
        rw [Nat.div_eq_of_lt hcur, Nat.zero_mul]
      simp [enumLoop, hc, ih (ipStep cur) (ipStep_lt cur)]
  unfold producesOutput at hL
  rw [hmask] at hL
  have hcongr := congrArg List.length hL
  rw [hlen (L.length + 1) 0 (by norm_num)] at hcongr
  omega

/-- C8 amended.  For every valid CIDR input with prefix length between 1
and 32, the enumerator terminates with output exactly the `2^(32-p)`
consecutive addresses of the block: it starts at the masked network
address, has no duplicates, and is strictly ascending.  (For `p = 0` the
loop never terminates, see `enum_slash_zero_no_output`.) -/
theorem enum_block_amended (p a : Nat) (hp1 : 1 ≤ p) (hp2 : p ≤ 32)
    (ha : a < 2 ^ 32) :
    producesOutput p a (List.range' (maskAddr p a) (2 ^ (32 - p))) ∧
    (List.range' (maskAddr p a) (2 ^ (32 - p))).length = 2 ^ (32 - p) ∧
    (List.range' (maskAddr p a) (2 ^ (32 - p))).head? = some (maskAddr p a) ∧
    (List.range' (maskAddr p a) (2 ^ (32 - p))).Nodup ∧
    (List.range' (maskAddr p a) (2 ^ (32 - p))).Pairwise (· < ·) := by
  have hS0 : 0 < 2 ^ (32 - p) := Nat.two_pow_pos _
  refine ⟨?_, by simp, ?_, List.nodup_range' _ _, List.pairwise_lt_range' _ _⟩
  · have hcore := enumLoop_eq_range' p a hp1 hp2 ha (2 ^ (32 - p) + 1) 0
      (Nat.zero_le _) (by omega)
    unfold producesOutput
    rw [List.length_range']
    simpa using hcore
  · rw [List.head?_range', if_neg (by omega)]

/-- Witness for `enum_block_amended`: the block of `192.168.0.1/30`. -/
theorem enum_block_amended_witness :
    1 ≤ 30 ∧ 30 ≤ 32 ∧ 3232235521 < 2 ^ 32 ∧
      producesOutput 30 3232235521
        (List.range' (maskAddr 30 3232235521) (2 ^ (32 - 30))) :=
  ⟨by norm_num, by norm_num, by norm_num,
    (enum_block_amended 30 3232235521 (by norm_num) (by norm_num)
      (by norm_num)).1⟩

/-- C1.  When the port probe succeeds but the metadata fetch or parse
fails, the per-host pipeline of `scan` does not short-circuit: the source
only prints the error and then evaluates `info.HW` on the nil record to
classify the generation, so the host crashes the scan instead of being
dropped without classification or name resolution. -/
theorem scan_crashes_on_fetch_error :
    processHost ['h'] true none ([], []) ([], []) = HostStep.crashNilDeref :=
  rfl

/-- C2.  Evaluated on concrete metadata documents: an empty `PN` yields
the sentinel, a `PN` that contains a parenthesized segment yields the
trimmed capture, but a non-empty `PN` without parentheses makes `HW()`
index the nil result of `FindAllStringSubmatch` and panic (`none` in this
embedding) instead of returning the sentinel. -/
theorem hw_panics_without_parens :
    RIMP.HW ⟨[], [], "iLO 4".data, [], []⟩ = none ∧
    RIMP.HW ⟨[], [], [], [], []⟩ = some notAvailable ∧
    RIMP.HW ⟨[], [], "iLO 4 (iLO 4)".data, [], []⟩ = some "iLO 4".data :=
  ⟨rfl, rfl, rfl⟩

/-- C9 counterexample.  A metadata document with an absent serial number
produces a record whose `Serial` field is the empty string, not the
"not available" sentinel: the source only trims `SBSN` and never
substitutes `notAvailable` for it. -/
theorem serial_empty_counterexample :
    (requestInfoRecord [] ⟨[], [], [], [], []⟩).map ILOInfo.Serial
      = some [] ∧ ([] : List Char) ≠ notAvailable :=
  ⟨rfl, by decide⟩

/-- C9 amended.  In every record built by `requestInfo`, the
hardware-revision, model and firmware fields fall back to the sentinel
when their raw fields are empty, while the serial is merely the trimmed
raw string (so an absent serial stays empty) and both name fields start
out empty. -/
theorem record_fields_amended (ip : List Char) (r : RIMP) (rec : ILOInfo)
    (h : requestInfoRecord ip r = some rec) :
    (r.PN = [] → rec.HW = notAvailable) ∧
    (r.SPN = [] → rec.Model = notAvailable) ∧
    (r.FWRI = [] → rec.FW = notAvailable) ∧
    rec.Serial = trimSpace r.SBSN ∧ rec.ServerName = [] ∧ rec.IloName = [] := by
  unfold requestInfoRecord at h
  cases hw : r.HW with
  | none => rw [hw] at h; cases h
  | some hwv =>
    rw [hw] at h
    injection h with h2
    subst h2
    refine ⟨?_, ?_, ?_, rfl, rfl, rfl⟩
    · intro hpn
      rw [RIMP.HW, if_pos hpn] at hw
      injection hw with h3
      exact h3.symm
    · intro hspn
      show r.Model = notAvailable
      rw [RIMP.Model, if_pos hspn]
    · intro hfwri
      show r.FW = notAvailable
      rw [RIMP.FW, if_pos hfwri]

/-- Witness for `record_fields_amended` on an all-empty document. -/
theorem record_fields_amended_witness :
    ((⟨[], [], [], [], []⟩ : RIMP).PN = [] →
        ILOInfo.HW (⟨[], notAvailable, notAvailable, notAvailable, [], [], []⟩
          : ILOInfo) = notAvailable) ∧
      ((⟨[], [], [], [], []⟩ : RIMP).SPN = [] →
        ILOInfo.Model (⟨[], notAvailable, notAvailable, notAvailable, [], [],
          []⟩ : ILOInfo) = notAvailable) ∧
      ((⟨[], [], [], [], []⟩ : RIMP).FWRI = [] →
        ILOInfo.FW (⟨[], notAvailable, notAvailable, notAvailable, [], [], []⟩
          : ILOInfo) = notAvailable) ∧
      ILOInfo.Serial (⟨[], notAvailable, notAvailable, notAvailable, [], [],
          []⟩ : ILOInfo) = trimSpace (⟨[], [], [], [], []⟩ : RIMP).SBSN ∧
      ILOInfo.ServerName (⟨[], notAvailable, notAvailable, notAvailable, [],
          [], []⟩ : ILOInfo) = [] ∧
      ILOInfo.IloName (⟨[], notAvailable, notAvailable, notAvailable, [], [],
          []⟩ : ILOInfo) = [] :=
  record_fields_amended [] ⟨[], [], [], [], []⟩ _ rfl

/-- Trimming a string of nothing but whitespace leaves the empty string. -/
theorem trimSpace_all_space (l : List Char)
    (h : ∀ c ∈ l, isGoSpace c = true) : trimSpace l = [] := by
  unfold trimSpace
  have h1 : l.dropWhile isGoSpace = [] := by
    rw [List.dropWhile_eq_nil_iff]
    exact h
  rw [h1]
  rfl

/-- C10.  The sentinel tests of `Model()` and `FW()` look at the length of
the raw field before trimming: a non-empty but all-whitespace `SPN`
(resp. `FWRI`) passes the length test and is then trimmed to the empty
string, so the methods return `""` rather than the sentinel. -/
theorem model_fw_whitespace_only (r : RIMP)
    (hspn : r.SPN ≠ []) (hspnw : ∀ c ∈ r.SPN, isGoSpace c = true)
    (hfwri : r.FWRI ≠ []) (hfwriw : ∀ c ∈ r.FWRI, isGoSpace c = true) :
    r.Model = [] ∧ r.FW = [] := by
  constructor
  · rw [RIMP.Model, if_neg hspn]
    exact trimSpace_all_space _ hspnw
  · rw [RIMP.FW, if_neg hfwri]
    exact trimSpace_all_space _ hfwriw

/-- Witness for `model_fw_whitespace_only` on single-space fields. -/
theorem model_fw_whitespace_only_witness :
    ((⟨[], [' '], [], [' '], []⟩ : RIMP).SPN ≠ [] ∧
        ∀ c ∈ (⟨[], [' '], [], [' '], []⟩ : RIMP).SPN, isGoSpace c = true) ∧
      (RIMP.Model ⟨[], [' '], [], [' '], []⟩ = [] ∧
        RIMP.FW ⟨[], [' '], [], [' '], []⟩ = []) :=
  ⟨⟨by decide, by decide⟩,
    model_fw_whitespace_only ⟨[], [' '], [], [' '], []⟩ (by decide) (by decide)
      (by decide) (by decide)⟩

/-- A string `strconv.Atoi` rejects makes the source's discarded-error
pattern read the value 0. -/
theorem atoiVal_of_syntax_err (t : List Char) (h : atoiOk t = false) :
    atoiVal t = 0 := by
  unfold atoiOk at h
  unfold atoiVal
  rcases hsp : splitSign t with ⟨neg, ds⟩
  rw [hsp] at h
  simp only at h
  simp [h]

/-- C3 counterexample.  A record whose hardware revision has a non-numeric
second token gets sort key 0, not the claimed 1: `strconv.Atoi` returns 0
with an error, and the source overwrites the default 1 with that 0 while
discarding the error. -/
theorem sort_key_counterexample :
    versionKey "iLO X".data ≠ 1 ∧ versionKey "iLO X".data = 0 := by
  constructor
  · decide
  · decide

/-- C3 amended.  The drained report is rendered in ascending order of the
code's sort key, where a record with a missing second whitespace-separated
token keeps the default key 1, while a record with a present but
non-numeric second token gets key 0 (the value `Atoi` returns alongside
the discarded error). -/
theorem report_sorted_by_code_key :
    (∀ drained sorted, tableOrder drained sorted →
      sorted.Pairwise fun r1 r2 => versionKey r1.HW ≤ versionKey r2.HW) ∧
    (∀ hw : List Char, (hw.splitOn ' ')[1]? = none → versionKey hw = 1) ∧
    (∀ (hw t : List Char), (hw.splitOn ' ')[1]? = some t →
      atoiOk t = false → versionKey hw = 0) := by
  refine ⟨?_, ?_, ?_⟩
  · rintro drained sorted ⟨_, hpw⟩
    refine hpw.imp ?_
    intro a b hab
    simp only [version, decide_eq_false_iff_not, not_lt] at hab
    exact hab
  · intro hw h
    simp [versionKey, h]
  · intro hw t h hsyn
    simp [versionKey, h, atoiVal_of_syntax_err t hsyn]

/-- Witness for `report_sorted_by_code_key` at concrete inputs. -/
theorem report_sorted_by_code_key_witness :
    ([(⟨[], [], [], [], [], [], []⟩ : ILOInfo)].Pairwise
        fun r1 r2 => versionKey r1.HW ≤ versionKey r2.HW) ∧
      versionKey "N/A".data = 1 ∧ versionKey "iLO X".data = 0 :=
  ⟨report_sorted_by_code_key.1 [⟨[], [], [], [], [], [], []⟩]
      [⟨[], [], [], [], [], [], []⟩] ⟨List.Perm.refl _, by simp⟩,
    report_sorted_by_code_key.2.1 "N/A".data (by decide),
    report_sorted_by_code_key.2.2 "iLO X".data "X".data (by decide)
      (by decide)⟩

/-- C7.  The ordering contract of `sort.Sort` (all the source's `By.Sort`
promises) does not force stability: a drained pair of records with equal
sort keys admits two different orders that both satisfy the contract, so
the relative drain order of equal-key records is not preserved by
specification — Go's `sort.Sort` is documented as not stable, and its
implementations do reorder equal elements on larger inputs. -/
theorem sort_not_stable :
    ∃ drained out1 out2 : List ILOInfo,
      tableOrder drained out1 ∧ tableOrder drained out2 ∧ out1 ≠ out2 := by
  refine ⟨[⟨['a'], "iLO 4".data, [], [], [], [], []⟩,
      ⟨['b'], "iLO 4".data, [], [], [], [], []⟩],
    [⟨['a'], "iLO 4".data, [], [], [], [], []⟩,
      ⟨['b'], "iLO 4".data, [], [], [], [], []⟩],
    [⟨['b'], "iLO 4".data, [], [], [], [], []⟩,
      ⟨['a'], "iLO 4".data, [], [], [], [], []⟩],
    ⟨List.Perm.refl _, ?_⟩, ⟨List.Perm.swap _ _ _, ?_⟩, ?_⟩
  · decide
  · decide
  · decide
